import Mathlib

/-!
Verification of the XXTEA cipher and decrypt-and-match protocol of this
repository (src/bodas/xxtea.gs and src/bodas/script.js).

Modelling conventions of the shallow embedding:
* JavaScript 32-bit words are represented as natural numbers. Every update the
  source performs through `int32` (`& 0xFFFFFFFF`) is represented with the same
  masking; word values produced by the transform are therefore `< 2^32`.
* JavaScript stores the masked words as *signed* Int32 numbers. This signedness
  is observable in the `m < n - 3 || m > n` comparison of `toByteArray`, which
  we model through `toSigned`, and in the shift operators of the codecs:
  `length << 2` in `toByteArray` is an Int32 operation that wraps negative for
  word counts `≥ 2^29`, and `length >> 2` in `toUint32Array` operates on
  `ToInt32(length)`, which is negative for byte lengths `≥ 2^31`.
* Strings are represented by their lists of character codes (`List Nat`), byte
  buffers by lists of byte values.
* A JavaScript function that can throw is modelled with `Option`, `none` being
  the propagated exception.
-/

set_option maxRecDepth 100000

/-- The 32-bit modulus `2^32`. -/
def M32 : Nat := 4294967296

/-- Source: xxtea.gs line 54, `var DELTA = 0x9E3779B9`. -/
def DELTA : Nat := 0x9E3779B9

/-- Source: xxtea.gs lines 106-108, `int32(i) = i & 0xFFFFFFFF`. On our
unsigned representation this keeps the low 32 bits. -/
def int32 (i : Nat) : Nat := i &&& 0xFFFFFFFF

/-- The source computes `a - b` on JavaScript numbers (possibly negative) and
then masks with `int32`; on naturals we add `M32` before subtracting, which
agrees modulo `2^32`. -/
def sub32 (a b : Nat) : Nat := int32 (a + M32 - b % M32)

/-- Source: xxtea.gs lines 110-112, the mix function
`((z >>> 5 ^ y << 2) + (y >>> 3 ^ z << 4)) ^ ((sum ^ y) + (k[p & 3 ^ e] ^ z))`.
JavaScript `&` binds tighter than `^`, so the key index is `(p & 3) ^ e`;
each `+` feeds a 32-bit truncating operation, rendered with `int32`. -/
def mx (sum y z p e : Nat) (k : List Nat) : Nat :=
  int32 (((z >>> 5) ^^^ int32 (y <<< 2)) + ((y >>> 3) ^^^ int32 (z <<< 4)))
    ^^^ int32 ((sum ^^^ y) + (k.getD ((p &&& 3) ^^^ e) 0 ^^^ z))

/-- One pass of xxtea.gs lines 114-121: `while (k.length < 4) k.push(0)`,
with structural fuel (four pushes always suffice). -/
def fixkAux : Nat → List Nat → List Nat
  | 0, k => k
  | fuel + 1, k => if k.length < 4 then fixkAux fuel (k ++ [0]) else k

/-- Source: xxtea.gs lines 114-121. Pads the key with zero words until it has
at least 4 words; never truncates. -/
def fixk (k : List Nat) : List Nat := fixkAux 4 k

/-- Word `j` of the packing loop of xxtea.gs lines 76-78:
`v[i >> 2] |= (bytes[i] & 0xFF) << ((i & 3) << 3)`. Word `j` accumulates
bytes `4*j .. 4*j+3` at shifts 0, 8, 16, 24 (absent bytes contribute 0,
matching the zero-initialised words). -/
def wordAt (bytes : List Nat) (j : Nat) : Nat :=
  ((bytes.getD (4 * j) 0 &&& 0xFF)
    ||| ((bytes.getD (4 * j + 1) 0 &&& 0xFF) <<< 8))
    ||| (((bytes.getD (4 * j + 2) 0 &&& 0xFF) <<< 16)
    ||| ((bytes.getD (4 * j + 3) 0 &&& 0xFF) <<< 24))

/-- Source: xxtea.gs lines 62-80, `toUint32Array`. Computes
`n = length >> 2`, incremented when `length & 3 != 0`; when `includeLength`
an extra trailing word holds the byte length. The shift is an Int32
operation: for `length < 2^31` it is exact division by 4, but for
`length ≥ 2^31` (JavaScript array lengths reach up to `2^32 - 1`)
`ToInt32(length)` is negative, so `n` is negative, the zero-fill loop and the
length-tag write `v[n] = length` touch no array element, and the packing loop
`v[i >> 2] |= ...` writes array indices only for `i < 2^31`: the result is
the `2^29` words packed from the first `2^31` bytes, with no length tag. -/
def toUint32Array (bytes : List Nat) (includeLength : Bool) : List Nat :=
  let length := bytes.length
  if length < 2147483648 then
    let n := if length &&& 3 ≠ 0 then (length >>> 2) + 1 else length >>> 2
    (List.range n).map (wordAt bytes) ++ (if includeLength then [length] else [])
  else
    (List.range 536870912).map (wordAt bytes)

/-- The byte-emission loop of xxtea.gs lines 99-102:
byte `i` is `(v[i >> 2] >>> ((i & 3) << 3)) & 0xFF`. -/
def extractBytes (v : List Nat) (n : Nat) : List Nat :=
  (List.range n).map (fun i => (v.getD (i >>> 2) 0 >>> ((i &&& 3) <<< 3)) &&& 0xFF)

/-- The value a word holds for JavaScript comparison operators: words are
stored as signed Int32 numbers (`int32` is `ToInt32`), so values `≥ 2^31`
compare as negative numbers. -/
def toSigned (m : Nat) : Int := if m < 2147483648 then (m : Int) else (m : Int) - 4294967296

/-- Source: xxtea.gs lines 88-104, `toByteArray`. The initial
`n = length << 2` is an Int32 shift, so `n` is the signed reading of
`4 * length mod 2^32`: it equals `4 * length` only for word counts below
`2^29` and wraps (usually negative) beyond. With `includeLength` the source
then does `n -= 4` (plain number subtraction, no further wrap) and checks the
trailing word `m` through JavaScript comparisons, which see the signed Int32
value of `m`; `none` models the `null` integrity failure. Without
`includeLength` the emission loop `for (i = 0; i < n; ++i)` runs `max(n, 0)`
times, rendered by `Int.toNat`. For an empty word array the source reads
`v[-1] = undefined`, both NaN comparisons are false, and the loop bound
`i < undefined` is false, hence the `[]` case succeeds with no bytes. -/
def toByteArray (v : List Nat) (includeLength : Bool) : Option (List Nat) :=
  let length := v.length
  let n : Int := toSigned (4 * length % 4294967296)
  if includeLength then
    if length = 0 then some []
    else
      let m := v.getD (length - 1) 0
      if toSigned m < n - 4 - 3 ∨ n - 4 < toSigned m then none
      else some (extractBytes v (toSigned m).toNat)
  else some (extractBytes v n.toNat)

/-- The inner loop of xxtea.gs lines 132-135: for `p` from the current index
while at least two words remain, `y = v[p+1]` (still the old value) and
`v[p] = int32(v[p] + mx(sum, y, z, p, e, k))`, with `z` the previously written
word. Returns the updated prefix (all but the last word) and the final `z`. -/
def encInner (sum e : Nat) (k : List Nat) : Nat → Nat → List Nat → List Nat × Nat
  | _, z, [] => ([], z)
  | _, z, [_] => ([], z)
  | p, z, x :: y :: rest =>
    let x' := int32 (x + mx sum y z p e k)
    let r := encInner sum e k (p + 1) x' (y :: rest)
    (x' :: r.1, r.2)

/-- One round of xxtea.gs lines 130-138: the inner loop over `p < n` followed
by the wrap-around step `y = v[0]; v[n] = int32(v[n] + mx(sum, y, z, n, e, k))`.
At round entry `z` equals the current last word (initially `z = v[n]`,
afterwards the wrap-around write maintains it). -/
def encRound (sum e : Nat) (k : List Nat) (v : List Nat) : List Nat :=
  match v with
  | [] => []
  | _ =>
    let r := encInner sum e k 0 (v.getLastD 0) v
    let y0 := r.1.headD (v.getLastD 0)
    r.1 ++ [int32 (v.getLastD 0 + mx sum y0 r.2 (v.length - 1) e k)]

/-- The round loop of xxtea.gs lines 129-138: `q` rounds, each advancing
`sum = int32(sum + DELTA)` and taking `e = sum >>> 2 & 3`. -/
def encLoop (k : List Nat) : Nat → Nat → List Nat → List Nat
  | 0, _, v => v
  | q + 1, sum, v =>
    let s' := int32 (sum + DELTA)
    encLoop k q s' (encRound s' ((s' >>> 2) &&& 3) k v)

/-- Source: xxtea.gs lines 123-140, `encryptUint32Array`, with
`q = Math.floor(6 + 52 / length)` rounds (`Nat` division is `floor`). For an
empty array JavaScript computes `Math.floor(6 + 52/0) | 0 = Infinity | 0 = 0`
rounds, so the function is the identity there. -/
def encryptUint32Array (v k : List Nat) : List Nat :=
  match v with
  | [] => []
  | _ => encLoop k (6 + 52 / v.length) 0 v

/-- The inner loop of xxtea.gs lines 150-153 for `p` from `n` down to `1`:
`z = v[p-1]` (still the old value), `y = v[p] = int32(v[p] - mx(sum, y, z, p, e, k))`,
where `y` starts as `v[0]` (`y0`). The arguments are the position `p` of the
first listed word, `zb = v[p-1]` (old) and the words from position `p` on;
returns the updated segment and the updated word at position `p`. -/
def decInner (sum e : Nat) (k : List Nat) (y0 : Nat) : Nat → Nat → List Nat → List Nat × Nat
  | _, _, [] => ([], y0)
  | p, zb, [x] =>
    let x' := sub32 x (mx sum y0 zb p e k)
    ([x'], x')
  | p, zb, x :: nx :: rest =>
    let r := decInner sum e k y0 (p + 1) x (nx :: rest)
    let x' := sub32 x (mx sum r.2 zb p e k)
    (x' :: r.1, x')

/-- One round of xxtea.gs lines 148-156: the downward inner loop followed by
the wrap-around step `z = v[n]; y = v[0] = int32(v[0] - mx(sum, y, z, 0, e, k))`.
At round entry `y` equals the current first word (initially `y = v[0]`,
afterwards the wrap-around write maintains it). -/
def decRound (sum e : Nat) (k : List Nat) (v : List Nat) : List Nat :=
  match v with
  | [] => []
  | [w0] => [sub32 w0 (mx sum w0 w0 0 e k)]
  | w0 :: w1 :: rest =>
    let r := decInner sum e k w0 1 w0 (w1 :: rest)
    sub32 w0 (mx sum r.2 (r.1.getLastD 0) 0 e k) :: r.1

/-- Exactly `q` decrypting rounds with `sum` decremented by `DELTA` each
round (the round count the while loop of the source performs; see
`decLoop_eq_decLoopN`). -/
def decLoopN (k : List Nat) : Nat → Nat → List Nat → List Nat
  | 0, _, v => v
  | q + 1, sum, v =>
    decLoopN k q (sub32 sum DELTA) (decRound sum ((sum >>> 2) &&& 3) k v)

/-- The round loop of xxtea.gs line 148:
`for (sum = int32(q * DELTA); sum !== 0; sum = int32(sum - DELTA))`, a while
loop rendered with structural fuel; the loop leaves when `sum` reaches 0. -/
def decLoop (k : List Nat) : Nat → Nat → List Nat → List Nat
  | 0, _, v => v
  | fuel + 1, sum, v =>
    if sum = 0 then v
    else decLoop k fuel (sub32 sum DELTA) (decRound sum ((sum >>> 2) &&& 3) k v)

/-- Source: xxtea.gs lines 142-158, `decryptUint32Array`, with
`q = Math.floor(6 + 52 / length)` and `sum` starting at `int32(q * DELTA)`.
Since `DELTA` is odd, the while loop runs exactly `q` rounds, so fuel `q + 1`
is exact (proved in `decLoop_eq_decLoopN`). For an empty array JavaScript
computes `sum = int32(Infinity * DELTA) = 0` and skips the loop. -/
def decryptUint32Array (v k : List Nat) : List Nat :=
  match v with
  | [] => []
  | _ =>
    let q := 6 + 52 / v.length
    decLoop k (q + 1) (int32 (q * DELTA)) v

/-- Modelled from the spec: the platform Base64 alphabet (spec §4.2/§6,
"standard Base64, no URL-safe variant, standard padding"); sextet `n` to
character code. -/
def b64Code (n : Nat) : Nat :=
  if n < 26 then 65 + n
  else if n < 52 then 97 + (n - 26)
  else if n < 62 then 48 + (n - 52)
  else if n = 62 then 43
  else 47

/-- Modelled from the spec: character code to sextet for standard Base64;
`none` for a character outside the alphabet. -/
def b64Val (c : Nat) : Option Nat :=
  if 65 ≤ c ∧ c ≤ 90 then some (c - 65)
  else if 97 ≤ c ∧ c ≤ 122 then some (c - 97 + 26)
  else if 48 ≤ c ∧ c ≤ 57 then some (c - 48 + 52)
  else if c = 43 then some 62
  else if c = 47 then some 63
  else none

/-- Modelled from the spec: `Utilities.base64Encode` (spec §4.2/§6), standard
Base64 with `=` (code 61) padding; groups of 3 bytes become 4 characters. -/
def base64Encode : List Nat → List Nat
  | b0 :: b1 :: b2 :: rest =>
    let x := b0 * 65536 + b1 * 256 + b2
    b64Code (x / 262144) :: b64Code (x / 4096 % 64) :: b64Code (x / 64 % 64)
      :: b64Code (x % 64) :: base64Encode rest
  | [b0, b1] =>
    let x := b0 * 1024 + b1 * 4
    [b64Code (x / 4096), b64Code (x / 64 % 64), b64Code (x % 64), 61]
  | [b0] =>
    let x := b0 * 16
    [b64Code (x / 64), b64Code (x % 64), 61, 61]
  | [] => []

/-- Modelled from the spec: `Utilities.base64Decode` / `atob` (spec §4.2/§7),
strict standard Base64 decoding; `none` models the platform decoder throwing
on malformed input (wrong length, bad character, misplaced padding). -/
def base64Decode : List Nat → Option (List Nat)
  | [] => some []
  | c0 :: c1 :: c2 :: c3 :: rest =>
    match b64Val c0, b64Val c1 with
    | some v0, some v1 =>
      if c2 = 61 then
        if c3 = 61 ∧ rest = [] then some [v0 * 4 + v1 / 16] else none
      else
        match b64Val c2 with
        | some v2 =>
          if c3 = 61 then
            if rest = [] then some [v0 * 4 + v1 / 16, v1 % 16 * 16 + v2 / 4] else none
          else
            match b64Val c3 with
            | some v3 =>
              let y := v0 * 262144 + v1 * 4096 + v2 * 64 + v3
              match base64Decode rest with
              | some bs => some (y / 65536 :: y / 256 % 256 :: y % 256 :: bs)
              | none => none
            | none => none
        | none => none
    | _, _ => none
  | _ => none

/-- Source: xxtea.gs lines 160-171, `encryptToBase64`, at the byte level (the
UTF-8 string-to-bytes conversion `Utilities.newBlob(...).getBytes()` is owned
by the platform and stays outside the embedding): tagged packing, key fix-up,
encryption, untagged byte emission (which never fails), Base64. -/
def encryptToBase64 (dataBytes keyBytes : List Nat) : List Nat :=
  let v := toUint32Array dataBytes true
  let k := toUint32Array keyBytes false
  let encryptedV := encryptUint32Array v (fixk k)
  base64Encode ((toByteArray encryptedV false).getD [])

/-- Source: xxtea.gs lines 173-188, `decryptFromBase64`, at the byte level.
The outer `Option` models exception propagation: `Utilities.base64Decode`
throws on malformed input and `decryptFromBase64` has no handler, so `none`
is a thrown exception escaping the function. `some none` is the explicit
`return null` on the length-tag integrity failure; `some (some bytes)` is a
successful decryption. -/
def decryptFromBase64 (data keyBytes : List Nat) : Option (Option (List Nat)) :=
  match base64Decode data with
  | none => none
  | some dataBytes =>
    let v := toUint32Array dataBytes false
    let k := toUint32Array keyBytes false
    let decryptedV := decryptUint32Array v (fixk k)
    match toByteArray decryptedV true with
    | none => some none
    | some bytes => some (some bytes)

/-- A JavaScript argument as the spreadsheet wrappers see it: `undefined`,
`null`, or a string (list of character codes). -/
inductive JSVal where
  | undef : JSVal
  | null : JSVal
  | str : List Nat → JSVal
deriving DecidableEq

/-- The literal `'ERROR: Key is required.'` of xxtea.gs lines 20 and 38. -/
def errMsg : List Nat := "ERROR: Key is required.".toList.map Char.toNat

/-- Source: xxtea.gs lines 18-27, `XXTEA_ENCRYPT`: empty result for missing
data, an error string for a missing key, otherwise `encryptToBase64` (which is
total, so the `catch` branch is unreachable in the model). -/
def XXTEA_ENCRYPT (data key : JSVal) : List Nat :=
  match data with
  | .undef => []
  | .null => []
  | .str d =>
    if d = [] then []
    else
      match key with
      | .undef => errMsg
      | .null => errMsg
      | .str kb =>
        if kb = [] then errMsg
        else encryptToBase64 d kb

/-- Source: xxtea.gs lines 36-48, `XXTEA_DECRYPT`: empty result for missing
data, an error string for a missing key; a `null` decryption result is mapped
to the empty string, and the `catch` maps a thrown exception (malformed
Base64) to the empty string as well. -/
def XXTEA_DECRYPT (data key : JSVal) : List Nat :=
  match data with
  | .undef => []
  | .null => []
  | .str d =>
    if d = [] then []
    else
      match key with
      | .undef => errMsg
      | .null => errMsg
      | .str kb =>
        if kb = [] then errMsg
        else
          match decryptFromBase64 d kb with
          | none => []
          | some none => []
          | some (some bytes) => bytes

/-- Character codes removed by JavaScript `String.prototype.trim` (whitespace
and line terminators; the representative ASCII and common Unicode set). -/
def wsChars : List Nat := [9, 10, 11, 12, 13, 32, 160, 8232, 8233, 65279]

/-- The sanitisation of script.js line 263:
`data.trim().replace(/ /g, '+')` — trim both ends, then every remaining
space (code 32) becomes `'+'` (code 43). -/
def sanitize (s : List Nat) : List Nat :=
  let trimmed := ((s.dropWhile (wsChars.contains ·)).reverse.dropWhile (wsChars.contains ·)).reverse
  trimmed.map (fun c => if c = 32 then 43 else c)

/-- Source: src/bodas/script.js lines 258-273, `decryptField`: `null` for a
missing or empty cell; otherwise the sanitised cell is decrypted, a thrown
exception is caught and turned into `null`, and a `null` cipher result is
passed through unchanged. The browser-side `XXTEA.decryptFromBase64` it calls
is the same function as xxtea.gs lines 173-188 (spec §4.2 describes both). -/
def decryptField (data : Option (List Nat)) (key : List Nat) : Option (List Nat) :=
  match data with
  | none => none
  | some s =>
    if s = [] then none
    else
      match decryptFromBase64 (sanitize s) key with
      | none => none
      | some r => r

/-- The row scan of src/bodas/script.js lines 301-316: decrypt each row's
code cell with the supplied code as key; the first row whose decryption equals
the code is returned and scanning stops (`break`). A row is a list of cells;
a cell index beyond the row is JavaScript `undefined`, modelled by `none`
from the list lookup. -/
def findGuestRow (ci : Nat) (code : List Nat) : List (List (List Nat)) → Option (List (List Nat))
  | [] => none
  | row :: rest =>
    if decryptField row[ci]? code = some code then some row
    else findGuestRow ci code rest

/-- The guard of src/bodas/script.js lines 298-317: rows are scanned only when
a code was supplied (`if (code)`: non-null and non-empty), otherwise no guest
row is produced. -/
def processGuestData (code : Option (List Nat)) (ci : Nat)
    (rows : List (List (List Nat))) : Option (List (List Nat)) :=
  match code with
  | none => none
  | some c => if c = [] then none else findGuestRow ci c rows

/-! ### Arithmetic helpers -/

theorem int32_eq_mod (i : Nat) : int32 i = i % M32 := by
  have h := Nat.and_pow_two_sub_one_eq_mod i 32
  norm_num at h
  simpa [int32, M32] using h

theorem int32_lt (i : Nat) : int32 i < M32 := by
  rw [int32_eq_mod]
  exact Nat.mod_lt _ (by norm_num [M32])

theorem M32_eq_pow : M32 = 2 ^ 32 := by norm_num [M32]

theorem mx_lt (sum y z p e : Nat) (k : List Nat) : mx sum y z p e k < M32 := by
  rw [M32_eq_pow]
  exact Nat.xor_lt_two_pow (M32_eq_pow ▸ int32_lt _) (M32_eq_pow ▸ int32_lt _)

theorem sub32_int32_cancel (x m : Nat) (hx : x < M32) (hm : m < M32) :
    sub32 (int32 (x + m)) m = x := by
  simp only [sub32, int32_eq_mod]
  simp only [M32] at *
  omega

theorem int32_int32_add (a b : Nat) : int32 (int32 a + b) = int32 (a + b) := by
  simp only [int32_eq_mod, Nat.mod_add_mod]

theorem sub32_int32_add (a b : Nat) (hb : b < M32) : sub32 (int32 (a + b)) b = int32 a := by
  simp only [sub32, int32_eq_mod]
  simp only [M32] at *
  omega

/-! ### Unfolding equations for the loop bodies -/

theorem encInner_single (s e : Nat) (k : List Nat) (p z x : Nat) :
    encInner s e k p z [x] = ([], z) := rfl

theorem encInner_cons (s e : Nat) (k : List Nat) (p z x nx : Nat) (rest : List Nat) :
    encInner s e k p z (x :: nx :: rest)
      = (int32 (x + mx s nx z p e k)
            :: (encInner s e k (p + 1) (int32 (x + mx s nx z p e k)) (nx :: rest)).1,
         (encInner s e k (p + 1) (int32 (x + mx s nx z p e k)) (nx :: rest)).2) := rfl

theorem decInner_single (s e : Nat) (k : List Nat) (y0 p zb x : Nat) :
    decInner s e k y0 p zb [x]
      = ([sub32 x (mx s y0 zb p e k)], sub32 x (mx s y0 zb p e k)) := rfl

theorem decInner_cons (s e : Nat) (k : List Nat) (y0 p zb x nx : Nat) (rest : List Nat) :
    decInner s e k y0 p zb (x :: nx :: rest)
      = (sub32 x (mx s (decInner s e k y0 (p + 1) x (nx :: rest)).2 zb p e k)
            :: (decInner s e k y0 (p + 1) x (nx :: rest)).1,
         sub32 x (mx s (decInner s e k y0 (p + 1) x (nx :: rest)).2 zb p e k)) := rfl

theorem encRound_cons (s e : Nat) (k : List Nat) (v0 : Nat) (tl : List Nat) :
    encRound s e k (v0 :: tl)
      = (encInner s e k 0 ((v0 :: tl).getLastD 0) (v0 :: tl)).1
          ++ [int32 ((v0 :: tl).getLastD 0
                + mx s ((encInner s e k 0 ((v0 :: tl).getLastD 0) (v0 :: tl)).1.headD
                      ((v0 :: tl).getLastD 0))
                    (encInner s e k 0 ((v0 :: tl).getLastD 0) (v0 :: tl)).2
                    ((v0 :: tl).length - 1) e k)] := rfl

theorem decRound_cons2 (s e : Nat) (k : List Nat) (w0 w1 : Nat) (rest : List Nat) :
    decRound s e k (w0 :: w1 :: rest)
      = sub32 w0 (mx s (decInner s e k w0 1 w0 (w1 :: rest)).2
            ((decInner s e k w0 1 w0 (w1 :: rest)).1.getLastD 0) 0 e k)
          :: (decInner s e k w0 1 w0 (w1 :: rest)).1 := rfl

theorem getLastD_irrel (l : List Nat) (h : l ≠ []) (d d' : Nat) :
    l.getLastD d = l.getLastD d' := by
  cases l with
  | nil => exact absurd rfl h
  | cons a tl => rw [List.getLastD_cons, List.getLastD_cons]

/-! ### The decrypting round inverts the encrypting round -/

theorem decInner_encInner (s e : Nat) (k : List Nat) (y0 : Nat) :
    ∀ (seg : List Nat) (p zprev : Nat), (∀ a ∈ seg, a < M32) → seg ≠ [] →
      decInner s e k y0 p zprev
          ((encInner s e k p zprev seg).1
            ++ [int32 (seg.getLastD 0
                  + mx s y0 (encInner s e k p zprev seg).2 (p + seg.length - 1) e k)])
        = (seg, seg.headD 0)
  | [], _, _, _, hne => absurd rfl hne
  | [x], p, zprev, hb, _ => by
    have hx : x < M32 := hb x (by simp)
    rw [encInner_single]
    have hlast : ([x] : List Nat).getLastD 0 = x := rfl
    have hidx : p + ([x] : List Nat).length - 1 = p := by simp
    rw [hlast, hidx, List.nil_append, decInner_single,
      sub32_int32_cancel x _ hx (mx_lt _ _ _ _ _ _)]
    rfl
  | x :: nx :: rest, p, zprev, hb, _ => by
    have hx : x < M32 := hb x (by simp)
    rw [encInner_cons]
    have hlast : (x :: nx :: rest).getLastD 0 = (nx :: rest).getLastD 0 := by
      rw [List.getLastD_cons]
      exact getLastD_irrel _ (by simp) _ _
    have hidx : p + (x :: nx :: rest).length - 1 = p + 1 + (nx :: rest).length - 1 := by
      simp only [List.length_cons]
      omega
    rw [hlast, hidx]
    have ih := decInner_encInner s e k y0 (nx :: rest) (p + 1)
      (int32 (x + mx s nx zprev p e k))
      (fun a ha => hb a (List.mem_cons_of_mem x ha)) (by simp)
    obtain ⟨c, cs, hccs⟩ :
        ∃ c cs, (encInner s e k (p + 1) (int32 (x + mx s nx zprev p e k)) (nx :: rest)).1
            ++ [int32 ((nx :: rest).getLastD 0
                  + mx s y0 (encInner s e k (p + 1) (int32 (x + mx s nx zprev p e k))
                      (nx :: rest)).2 (p + 1 + (nx :: rest).length - 1) e k)]
          = c :: cs :=
      List.exists_cons_of_ne_nil (by simp)
    rw [List.cons_append, hccs, decInner_cons, ← hccs, ih]
    simp only [List.headD_cons]
    rw [sub32_int32_cancel x _ hx (mx_lt _ _ _ _ _ _)]

theorem decRound_encRound (s e : Nat) (k v : List Nat) (h2 : 2 ≤ v.length)
    (hb : ∀ a ∈ v, a < M32) : decRound s e k (encRound s e k v) = v := by
  match v, h2 with
  | v0 :: v1 :: rest, _ =>
    have hv0 : v0 < M32 := hb v0 (by simp)
    have hbtl : ∀ a ∈ v1 :: rest, a < M32 := fun a ha => hb a (List.mem_cons_of_mem v0 ha)
    have hlast : (v0 :: v1 :: rest).getLastD 0 = (v1 :: rest).getLastD 0 := by
      rw [List.getLastD_cons]
      exact getLastD_irrel _ (by simp) _ _
    have hidx : (v0 :: v1 :: rest).length - 1 = 1 + (v1 :: rest).length - 1 := by
      simp only [List.length_cons]
      omega
    rw [encRound_cons, encInner_cons, hlast, hidx]
    simp only [List.headD_cons]
    have hG := decInner_encInner s e k
      (int32 (v0 + mx s v1 ((v1 :: rest).getLastD 0) 0 e k)) (v1 :: rest) 1
      (int32 (v0 + mx s v1 ((v1 :: rest).getLastD 0) 0 e k)) hbtl (by simp)
    obtain ⟨c, cs, hccs⟩ :
        ∃ c cs, (encInner s e k 1
              (int32 (v0 + mx s v1 ((v1 :: rest).getLastD 0) 0 e k)) (v1 :: rest)).1
            ++ [int32 ((v1 :: rest).getLastD 0
                  + mx s (int32 (v0 + mx s v1 ((v1 :: rest).getLastD 0) 0 e k))
                    (encInner s e k 1
                      (int32 (v0 + mx s v1 ((v1 :: rest).getLastD 0) 0 e k)) (v1 :: rest)).2
                    (1 + (v1 :: rest).length - 1) e k)]
          = c :: cs :=
      List.exists_cons_of_ne_nil (by simp)
    rw [List.cons_append, hccs, decRound_cons2, ← hccs, hG]
    simp only [List.headD_cons]
    rw [sub32_int32_cancel v0 _ hv0 (mx_lt _ _ _ _ _ _)]

/-! ### Length and bound invariants of the transform -/

theorem encInner_fst_length (s e : Nat) (k : List Nat) :
    ∀ (seg : List Nat) (p z : Nat), (encInner s e k p z seg).1.length = seg.length - 1
  | [], _, _ => rfl
  | [_], _, _ => rfl
  | x :: nx :: rest, p, z => by
    rw [encInner_cons]
    simp only [List.length_cons]
    rw [encInner_fst_length s e k (nx :: rest) (p + 1)]
    simp

theorem encInner_fst_mem_lt (s e : Nat) (k : List Nat) :
    ∀ (seg : List Nat) (p z : Nat), ∀ a ∈ (encInner s e k p z seg).1, a < M32
  | [], _, _ => by simp [encInner]
  | [x], p, z => by simp [encInner_single]
  | x :: nx :: rest, p, z => by
    rw [encInner_cons]
    intro a ha
    rcases List.mem_cons.mp ha with h | h
    · exact h ▸ int32_lt _
    · exact encInner_fst_mem_lt s e k (nx :: rest) (p + 1) _ a h

theorem encRound_length (s e : Nat) (k v : List Nat) : (encRound s e k v).length = v.length := by
  cases v with
  | nil => rfl
  | cons v0 tl =>
    rw [encRound_cons]
    simp [encInner_fst_length]

theorem encRound_mem_lt (s e : Nat) (k v : List Nat) : ∀ a ∈ encRound s e k v, a < M32 := by
  cases v with
  | nil => simp [encRound]
  | cons v0 tl =>
    rw [encRound_cons]
    intro a ha
    rcases List.mem_append.mp ha with h | h
    · exact encInner_fst_mem_lt s e k _ _ _ a h
    · rcases List.mem_singleton.mp h with rfl
      exact int32_lt _

theorem decInner_fst_length (s e : Nat) (k : List Nat) (y0 : Nat) :
    ∀ (seg : List Nat) (p zb : Nat), (decInner s e k y0 p zb seg).1.length = seg.length
  | [], _, _ => rfl
  | [_], _, _ => rfl
  | x :: nx :: rest, p, zb => by
    rw [decInner_cons]
    simp only [List.length_cons]
    rw [decInner_fst_length s e k y0 (nx :: rest) (p + 1)]
    simp

theorem decInner_fst_mem_lt (s e : Nat) (k : List Nat) (y0 : Nat) :
    ∀ (seg : List Nat) (p zb : Nat), ∀ a ∈ (decInner s e k y0 p zb seg).1, a < M32
  | [], _, _ => by simp [decInner]
  | [x], p, zb => by
    rw [decInner_single]
    intro a ha
    rcases List.mem_singleton.mp ha with rfl
    exact int32_lt _
  | x :: nx :: rest, p, zb => by
    rw [decInner_cons]
    intro a ha
    rcases List.mem_cons.mp ha with h | h
    · exact h ▸ int32_lt _
    · exact decInner_fst_mem_lt s e k y0 (nx :: rest) (p + 1) _ a h

theorem decRound_length (s e : Nat) (k v : List Nat) : (decRound s e k v).length = v.length := by
  match v with
  | [] => rfl
  | [w0] => rfl
  | w0 :: w1 :: rest =>
    rw [decRound_cons2]
    simp [decInner_fst_length]

theorem decRound_mem_lt (s e : Nat) (k v : List Nat) : ∀ a ∈ decRound s e k v, a < M32 := by
  match v with
  | [] => simp [decRound]
  | [w0] =>
    intro a ha
    rcases List.mem_singleton.mp ha with rfl
    exact int32_lt _
  | w0 :: w1 :: rest =>
    rw [decRound_cons2]
    intro a ha
    rcases List.mem_cons.mp ha with h | h
    · exact h ▸ int32_lt _
    · exact decInner_fst_mem_lt s e k w0 (w1 :: rest) 1 w0 a h

theorem encLoop_length (k : List Nat) :
    ∀ (q sum : Nat) (v : List Nat), (encLoop k q sum v).length = v.length
  | 0, _, _ => rfl
  | q + 1, sum, v => by
    show (encLoop k q _ (encRound _ _ k v)).length = _
    rw [encLoop_length k q, encRound_length]

theorem encLoop_mem_lt (k : List Nat) :
    ∀ (q sum : Nat) (v : List Nat), (∀ a ∈ v, a < M32) → ∀ a ∈ encLoop k q sum v, a < M32
  | 0, _, _, hv => hv
  | q + 1, sum, v, hv =>
    encLoop_mem_lt k q _ _ (encRound_mem_lt _ _ k v)

theorem decLoopN_length (k : List Nat) :
    ∀ (q sum : Nat) (v : List Nat), (decLoopN k q sum v).length = v.length
  | 0, _, _ => rfl
  | q + 1, sum, v => by
    show (decLoopN k q _ (decRound _ _ k v)).length = _
    rw [decLoopN_length k q, decRound_length]

theorem decLoop_length (k : List Nat) :
    ∀ (fuel sum : Nat) (v : List Nat), (decLoop k fuel sum v).length = v.length
  | 0, _, _ => rfl
  | fuel + 1, sum, v => by
    show (if sum = 0 then v else _).length = _
    split
    · rfl
    · rw [decLoop_length k fuel, decRound_length]

theorem decLoop_mem_lt (k : List Nat) :
    ∀ (fuel sum : Nat) (v : List Nat), (∀ a ∈ v, a < M32) → ∀ a ∈ decLoop k fuel sum v, a < M32
  | 0, _, _, hv => hv
  | fuel + 1, sum, v, hv => by
    show ∀ a ∈ (if sum = 0 then v else _), a < M32
    split
    · exact hv
    · exact decLoop_mem_lt k fuel _ _ (decRound_mem_lt _ _ k v)

/-! ### The round loops are inverse -/

theorem encLoop_succ_last (k : List Nat) :
    ∀ (q sum : Nat) (v : List Nat),
      encLoop k (q + 1) sum v
        = encRound (int32 (sum + (q + 1) * DELTA))
            ((int32 (sum + (q + 1) * DELTA) >>> 2) &&& 3) k (encLoop k q sum v)
  | 0, sum, v => by
    have h : (0 + 1) * DELTA = DELTA := by ring
    show encRound (int32 (sum + DELTA)) ((int32 (sum + DELTA) >>> 2) &&& 3) k v
        = encRound (int32 (sum + (0 + 1) * DELTA))
            ((int32 (sum + (0 + 1) * DELTA) >>> 2) &&& 3) k v
    rw [h]
  | q + 1, sum, v => by
    show encLoop k (q + 1) (int32 (sum + DELTA))
        (encRound (int32 (sum + DELTA)) ((int32 (sum + DELTA) >>> 2) &&& 3) k v)
      = encRound (int32 (sum + (q + 1 + 1) * DELTA))
          ((int32 (sum + (q + 1 + 1) * DELTA) >>> 2) &&& 3) k (encLoop k (q + 1) sum v)
    rw [encLoop_succ_last k q (int32 (sum + DELTA))]
    have hs : int32 (int32 (sum + DELTA) + (q + 1) * DELTA) = int32 (sum + (q + 1 + 1) * DELTA) := by
      rw [int32_int32_add]
      congr 1
      ring
    rw [hs]
    rfl

theorem decLoopN_encLoop (k : List Nat) :
    ∀ (q sum : Nat) (v : List Nat), 2 ≤ v.length → (∀ a ∈ v, a < M32) →
      decLoopN k q (int32 (sum + q * DELTA)) (encLoop k q sum v) = v
  | 0, sum, v, _, _ => rfl
  | q + 1, sum, v, h2, hb => by
    rw [encLoop_succ_last]
    show decLoopN k q (sub32 (int32 (sum + (q + 1) * DELTA)) DELTA)
        (decRound (int32 (sum + (q + 1) * DELTA))
          ((int32 (sum + (q + 1) * DELTA) >>> 2) &&& 3) k
          (encRound (int32 (sum + (q + 1) * DELTA))
            ((int32 (sum + (q + 1) * DELTA) >>> 2) &&& 3) k (encLoop k q sum v))) = v
    rw [decRound_encRound _ _ k (encLoop k q sum v)
        (by rw [encLoop_length]; exact h2) (encLoop_mem_lt k q sum v hb)]
    have hs : sub32 (int32 (sum + (q + 1) * DELTA)) DELTA = int32 (sum + q * DELTA) := by
      have h1 : sum + (q + 1) * DELTA = (sum + q * DELTA) + DELTA := by ring
      rw [h1, sub32_int32_add _ _ (by norm_num [DELTA, M32])]
    rw [hs]
    exact decLoopN_encLoop k q sum v h2 hb

theorem delta_mul_int32_ne_zero (j : Nat) (h0 : 0 < j) (hj : j < M32) :
    int32 (j * DELTA) ≠ 0 := by
  rw [int32_eq_mod]
  intro hmod
  have hdvd : M32 ∣ j * DELTA := Nat.dvd_of_mod_eq_zero hmod
  have hco : Nat.Coprime M32 DELTA := by
    simp only [M32, DELTA]
    norm_num
  have : M32 ∣ j := hco.dvd_of_dvd_mul_right hdvd
  have := Nat.le_of_dvd h0 this
  omega

theorem decLoop_eq_decLoopN (k : List Nat) :
    ∀ (i : Nat), i < M32 → ∀ (v : List Nat),
      decLoop k (i + 1) (int32 (i * DELTA)) v = decLoopN k i (int32 (i * DELTA)) v := by
  intro i
  induction i with
  | zero =>
    intro _ v
    show decLoop k 1 (int32 0) v = v
    simp [decLoop, int32_eq_mod]
  | succ i ih =>
    intro hi v
    have hne : int32 ((i + 1) * DELTA) ≠ 0 :=
      delta_mul_int32_ne_zero (i + 1) (Nat.succ_pos i) hi
    show (if int32 ((i + 1) * DELTA) = 0 then v
        else decLoop k (i + 1) (sub32 (int32 ((i + 1) * DELTA)) DELTA)
          (decRound (int32 ((i + 1) * DELTA)) ((int32 ((i + 1) * DELTA) >>> 2) &&& 3) k v))
      = decLoopN k i (sub32 (int32 ((i + 1) * DELTA)) DELTA)
          (decRound (int32 ((i + 1) * DELTA)) ((int32 ((i + 1) * DELTA) >>> 2) &&& 3) k v)
    rw [if_neg hne]
    have hs : sub32 (int32 ((i + 1) * DELTA)) DELTA = int32 (i * DELTA) := by
      have h1 : (i + 1) * DELTA = i * DELTA + DELTA := by ring
      rw [h1, sub32_int32_add _ _ (by norm_num [DELTA, M32])]
    rw [hs]
    exact ih (by omega) _

/-! ### Decryption inverts encryption for word arrays of length at least 2 -/

theorem decrypt_encrypt (v k : List Nat) (h2 : 2 ≤ v.length) (hb : ∀ a ∈ v, a < M32) :
    decryptUint32Array (encryptUint32Array v k) k = v := by
  obtain ⟨v0, tl, rfl⟩ : ∃ v0 tl, v = v0 :: tl := by
    cases v with
    | nil => simp at h2
    | cons a l => exact ⟨a, l, rfl⟩
  · have henc : encryptUint32Array (v0 :: tl) k
        = encLoop k (6 + 52 / (v0 :: tl).length) 0 (v0 :: tl) := rfl
    have hlen : (encryptUint32Array (v0 :: tl) k).length = (v0 :: tl).length := by
      rw [henc, encLoop_length]
    obtain ⟨b, m, hbm⟩ : ∃ b m, encryptUint32Array (v0 :: tl) k = b :: m := by
      rcases he : encryptUint32Array (v0 :: tl) k with _ | ⟨b, m⟩
      · rw [he] at hlen
        simp at hlen
      · exact ⟨b, m, rfl⟩
    have hq : 6 + 52 / (b :: m).length = 6 + 52 / (v0 :: tl).length := by
      rw [← hbm, hlen]
    have hdec : decryptUint32Array (b :: m) k
        = decLoop k ((6 + 52 / (b :: m).length) + 1)
            (int32 ((6 + 52 / (b :: m).length) * DELTA)) (b :: m) := rfl
    rw [hbm, hdec, hq]
    have hqlt : 6 + 52 / (v0 :: tl).length < M32 := by
      have : 52 / (v0 :: tl).length ≤ 52 := Nat.div_le_self _ _
      simp only [M32]
      omega
    rw [decLoop_eq_decLoopN k _ hqlt]
    rw [← hbm, henc]
    have h0 : int32 ((6 + 52 / (v0 :: tl).length) * DELTA)
        = int32 (0 + (6 + 52 / (v0 :: tl).length) * DELTA) := by
      rw [Nat.zero_add]
    rw [h0]
    exact decLoopN_encLoop k _ 0 (v0 :: tl) h2 hb

/-! ### Bit-arithmetic helpers for the codec -/

theorem lor_eq_add {s : Nat} (a b : Nat) (ha : a < 2 ^ s) (hd : 2 ^ s ∣ b) :
    a ||| b = b + a := by
  obtain ⟨c, rfl⟩ := hd
  rw [Nat.lor_comm]
  exact (Nat.mul_add_lt_is_or ha c).symm

theorem and_255_eq (y : Nat) : y &&& 255 = y % 256 := by
  have h := Nat.and_pow_two_sub_one_eq_mod y 8
  norm_num at h
  exact h

theorem and_3_eq (y : Nat) : y &&& 3 = y % 4 := by
  have h := Nat.and_pow_two_sub_one_eq_mod y 2
  norm_num at h
  exact h

theorem shiftRight_eq_div (y s : Nat) : y >>> s = y / 2 ^ s := Nat.shiftRight_eq_div_pow y s

theorem wordAt_eq (bytes : List Nat) (j : Nat) :
    wordAt bytes j
      = bytes.getD (4 * j) 0 % 256 + bytes.getD (4 * j + 1) 0 % 256 * 256
          + bytes.getD (4 * j + 2) 0 % 256 * 65536
          + bytes.getD (4 * j + 3) 0 % 256 * 16777216 := by
  unfold wordAt
  rw [and_255_eq, and_255_eq, and_255_eq, and_255_eq,
    Nat.shiftLeft_eq, Nat.shiftLeft_eq, Nat.shiftLeft_eq]
  rw [lor_eq_add _ _ (show bytes.getD (4 * j) 0 % 256 < 2 ^ 8 by omega)
      ⟨bytes.getD (4 * j + 1) 0 % 256, by ring⟩]
  rw [lor_eq_add _ _
      (show bytes.getD (4 * j + 2) 0 % 256 * 2 ^ 16 < 2 ^ 24 by
        have h16 : (2:Nat) ^ 16 = 65536 := by norm_num
        have h24 : (2:Nat) ^ 24 = 16777216 := by norm_num
        rw [h16, h24]
        omega)
      ⟨bytes.getD (4 * j + 3) 0 % 256, by ring⟩]
  rw [lor_eq_add _ _
      (show bytes.getD (4 * j + 1) 0 % 256 * 2 ^ 8 + bytes.getD (4 * j) 0 % 256 < 2 ^ 16 by
        have h8 : (2:Nat) ^ 8 = 256 := by norm_num
        have h16 : (2:Nat) ^ 16 = 65536 := by norm_num
        rw [h8, h16]
        omega)
      (Dvd.dvd.add ⟨bytes.getD (4 * j + 3) 0 % 256 * 2 ^ 8, by ring⟩
        ⟨bytes.getD (4 * j + 2) 0 % 256, by ring⟩)]
  have h8 : (2:Nat) ^ 8 = 256 := by norm_num
  have h16 : (2:Nat) ^ 16 = 65536 := by norm_num
  have h24 : (2:Nat) ^ 24 = 16777216 := by norm_num
  rw [h8, h16, h24]
  ring

theorem wordAt_lt (bytes : List Nat) (j : Nat) : wordAt bytes j < M32 := by
  rw [wordAt_eq]
  simp only [M32]
  omega

theorem getD_map_range (f : Nat → Nat) (n j : Nat) (h : j < n) :
    ((List.range n).map f).getD j 0 = f j := by
  rw [List.getD_eq_getElem?_getD]
  simp [List.getElem?_map, List.getElem?_range, h]

theorem toUint32Array_length (bytes : List Nat) (il : Bool)
    (h : bytes.length < 2147483648) :
    (toUint32Array bytes il).length
      = (if bytes.length % 4 ≠ 0 then bytes.length / 4 + 1 else bytes.length / 4)
          + (if il then 1 else 0) := by
  simp only [toUint32Array]
  rw [if_pos h]
  simp only [List.length_append, List.length_map, List.length_range]
  rw [and_3_eq, shiftRight_eq_div]
  norm_num
  cases il <;> simp

theorem toUint32Array_mem_lt (bytes : List Nat) (il : Bool) (h : bytes.length < M32) :
    ∀ a ∈ toUint32Array bytes il, a < M32 := by
  simp only [toUint32Array]
  intro a ha
  by_cases h31 : bytes.length < 2147483648
  · rw [if_pos h31] at ha
    rcases List.mem_append.mp ha with hm | hm
    · obtain ⟨j, _, rfl⟩ := List.mem_map.mp hm
      exact wordAt_lt bytes j
    · cases il with
      | true =>
        simp only [if_pos, List.mem_singleton] at hm
        exact hm ▸ h
      | false => simp at hm
  · rw [if_neg h31] at ha
    obtain ⟨j, _, rfl⟩ := List.mem_map.mp ha
    exact wordAt_lt bytes j

theorem toUint32Array_true_last (bytes : List Nat) (h : bytes.length < 2147483648) :
    (toUint32Array bytes true).getD ((toUint32Array bytes true).length - 1) 0
      = bytes.length := by
  simp only [toUint32Array]
  rw [if_pos h]
  show (List.map (wordAt bytes) (List.range _) ++ [bytes.length]).getD
      ((List.map (wordAt bytes) (List.range _) ++ [bytes.length]).length - 1) 0 = bytes.length
  rw [List.length_append, List.length_singleton]
  have hidx : (List.map (wordAt bytes) (List.range
      (if bytes.length &&& 3 ≠ 0 then bytes.length >>> 2 + 1 else bytes.length >>> 2))).length
        + 1 - 1
      = (List.map (wordAt bytes) (List.range
          (if bytes.length &&& 3 ≠ 0 then bytes.length >>> 2 + 1 else bytes.length >>> 2))).length := by
    omega
  rw [hidx, List.getD_append_right _ _ _ _ (Nat.le_refl _)]
  simp

theorem extractBytes_length (v : List Nat) (n : Nat) : (extractBytes v n).length = n := by
  simp [extractBytes]

theorem extractBytes_getD (v : List Nat) (n i : Nat) (h : i < n) :
    (extractBytes v n).getD i 0
      = (v.getD (i >>> 2) 0 >>> ((i &&& 3) <<< 3)) &&& 255 := by
  simp only [extractBytes]
  exact getD_map_range _ n i h

theorem extractBytes_mem_lt (v : List Nat) (n : Nat) :
    ∀ a ∈ extractBytes v n, a < 256 := by
  simp only [extractBytes]
  intro a ha
  obtain ⟨i, _, rfl⟩ := List.mem_map.mp ha
  rw [and_255_eq]
  omega

/-! ### Packing round trips -/

theorem getD_lt_of_mem_lt {l : List Nat} {c : Nat} (h : ∀ a ∈ l, a < c) (hc : 0 < c) (i : Nat) :
    l.getD i 0 < c := by
  rcases Nat.lt_or_ge i l.length with hi | hi
  · rw [List.getD_eq_getElem l 0 hi]
    exact h _ (List.getElem_mem hi)
  · rw [List.getD_eq_default l 0 hi]
    exact hc

theorem wordAt_extract (w : List Nat) (hw : ∀ a ∈ w, a < M32) (j : Nat) (hj : j < w.length) :
    wordAt (extractBytes w (4 * w.length)) j = w.getD j 0 := by
  have h0 : 4 * j < 4 * w.length := by omega
  have h1 : 4 * j + 1 < 4 * w.length := by omega
  have h2 : 4 * j + 2 < 4 * w.length := by omega
  have h3 : 4 * j + 3 < 4 * w.length := by omega
  rw [wordAt_eq, extractBytes_getD _ _ _ h0, extractBytes_getD _ _ _ h1,
    extractBytes_getD _ _ _ h2, extractBytes_getD _ _ _ h3]
  have e0 : (4 * j) >>> 2 = j := by rw [shiftRight_eq_div]; omega
  have e1 : (4 * j + 1) >>> 2 = j := by rw [shiftRight_eq_div]; omega
  have e2 : (4 * j + 2) >>> 2 = j := by rw [shiftRight_eq_div]; omega
  have e3 : (4 * j + 3) >>> 2 = j := by rw [shiftRight_eq_div]; omega
  have f0 : ((4 * j) &&& 3) <<< 3 = 0 := by rw [and_3_eq, Nat.shiftLeft_eq]; omega
  have f1 : ((4 * j + 1) &&& 3) <<< 3 = 8 := by rw [and_3_eq, Nat.shiftLeft_eq]; omega
  have f2 : ((4 * j + 2) &&& 3) <<< 3 = 16 := by rw [and_3_eq, Nat.shiftLeft_eq]; omega
  have f3 : ((4 * j + 3) &&& 3) <<< 3 = 24 := by rw [and_3_eq, Nat.shiftLeft_eq]; omega
  rw [e0, e1, e2, e3, f0, f1, f2, f3]
  have hx : w.getD j 0 < M32 := getD_lt_of_mem_lt hw (by norm_num [M32]) j
  rw [and_255_eq, and_255_eq, and_255_eq, and_255_eq,
    shiftRight_eq_div, shiftRight_eq_div, shiftRight_eq_div, shiftRight_eq_div]
  have p0 : (2:Nat) ^ 0 = 1 := by norm_num
  have p8 : (2:Nat) ^ 8 = 256 := by norm_num
  have p16 : (2:Nat) ^ 16 = 65536 := by norm_num
  have p24 : (2:Nat) ^ 24 = 16777216 := by norm_num
  rw [p0, p8, p16, p24]
  simp only [M32] at hx
  omega

theorem toUint32Array_extract (w : List Nat) (hw : ∀ a ∈ w, a < M32)
    (hw4 : w.length < 536870912) :
    toUint32Array (extractBytes w (4 * w.length)) false = w := by
  have hmod : 4 * w.length &&& 3 = 0 := by rw [and_3_eq]; omega
  have hdiv : (4 * w.length) >>> 2 = w.length := by rw [shiftRight_eq_div]; omega
  have hsplit : toUint32Array (extractBytes w (4 * w.length)) false
      = (List.range w.length).map (wordAt (extractBytes w (4 * w.length))) := by
    simp only [toUint32Array, extractBytes_length]
    rw [if_pos (by omega : 4 * w.length < 2147483648), hmod, hdiv]
    simp
  rw [hsplit]
  apply List.ext_getElem (by simp)
  intro i h1 h2
  rw [List.getElem_map, List.getElem_range]
  rw [← List.getD_eq_getElem w 0 h2]
  exact wordAt_extract w hw i h2

theorem byte_extract_0 (m a b c : Nat) (hm : m < 256) :
    (m % 256 + a % 256 * 256 + b % 256 * 65536 + c % 256 * 16777216) / 2 ^ (0 * 8) % 256
      = m := by
  norm_num
  omega

theorem byte_extract_1 (m a b c : Nat) (ha : a < 256) :
    (m % 256 + a % 256 * 256 + b % 256 * 65536 + c % 256 * 16777216) / 2 ^ (1 * 8) % 256
      = a := by
  norm_num
  omega

theorem byte_extract_2 (m a b c : Nat) (hb : b < 256) :
    (m % 256 + a % 256 * 256 + b % 256 * 65536 + c % 256 * 16777216) / 2 ^ (2 * 8) % 256
      = b := by
  norm_num
  omega

theorem byte_extract_3 (m a b c : Nat) (hc : c < 256) :
    (m % 256 + a % 256 * 256 + b % 256 * 65536 + c % 256 * 16777216) / 2 ^ (3 * 8) % 256
      = c := by
  norm_num
  omega

theorem extract_toUint32Array (b : List Nat) (hb : ∀ a ∈ b, a < 256)
    (hlen : b.length < 2147483648) :
    extractBytes (toUint32Array b true) b.length = b := by
  apply List.ext_getElem (by rw [extractBytes_length])
  intro i h1 h2
  simp only [extractBytes, List.getElem_map, List.getElem_range]
  -- the word index i >>> 2 lies inside the data words of the tagged array
  have hwords : i >>> 2
      < (if b.length &&& 3 ≠ 0 then b.length >>> 2 + 1 else b.length >>> 2) := by
    rw [shiftRight_eq_div, and_3_eq, shiftRight_eq_div]
    split <;> omega
  have hsplit : toUint32Array b true
      = (List.range (if b.length &&& 3 ≠ 0 then b.length >>> 2 + 1
            else b.length >>> 2)).map (wordAt b) ++ [b.length] := by
    simp [toUint32Array, hlen]
  have hvd : (toUint32Array b true).getD (i >>> 2) 0 = wordAt b (i >>> 2) := by
    rw [hsplit, List.getD_append _ _ _ _ (by simpa using hwords)]
    exact getD_map_range _ _ _ hwords
  rw [hvd]
  have hb' : ∀ idx, b.getD idx 0 < 256 := getD_lt_of_mem_lt hb (by norm_num)
  have hdiv : i >>> 2 = i / 4 := by rw [shiftRight_eq_div]; norm_num
  have hs : ((i &&& 3) <<< 3) = i % 4 * 8 := by rw [and_3_eq, Nat.shiftLeft_eq]
  rw [hdiv, hs, wordAt_eq, and_255_eq, shiftRight_eq_div]
  have c0 := hb' (4 * (i / 4))
  have c1 := hb' (4 * (i / 4) + 1)
  have c2 := hb' (4 * (i / 4) + 2)
  have c3 := hb' (4 * (i / 4) + 3)
  have cm := hb' i
  have hcase : i % 4 = 0 ∨ i % 4 = 1 ∨ i % 4 = 2 ∨ i % 4 = 3 := by omega
  have hgetb : b[i] = b.getD i 0 := (List.getD_eq_getElem b 0 h2).symm
  rw [hgetb]
  rcases hcase with h | h | h | h
  · rw [h]
    have hi : 4 * (i / 4) = i := by omega
    rw [hi]
    exact byte_extract_0 _ _ _ _ cm
  · rw [h]
    have hi : 4 * (i / 4) + 1 = i := by omega
    rw [hi]
    exact byte_extract_1 _ _ _ _ cm
  · rw [h]
    have hi : 4 * (i / 4) + 2 = i := by omega
    rw [hi]
    exact byte_extract_2 _ _ _ _ cm
  · rw [h]
    have hi : 4 * (i / 4) + 3 = i := by omega
    rw [hi]
    exact byte_extract_3 _ _ _ _ cm

theorem toByteArray_toUint32Array (b : List Nat) (hb : ∀ a ∈ b, a < 256)
    (hlen : b.length ≤ 2147483640) :
    toByteArray (toUint32Array b true) true = some b := by
  have h31 : b.length < 2147483648 := by omega
  have hL : (toUint32Array b true).length
      = (if b.length % 4 ≠ 0 then b.length / 4 + 1 else b.length / 4) + 1 := by
    rw [toUint32Array_length b true h31]
    simp
  -- at most 2^29 - 1 words, so the Int32 shift `length << 2` does not wrap
  have hWle : (toUint32Array b true).length ≤ 536870911 := by
    rw [hL]
    split <;> omega
  have hm : (toUint32Array b true).getD ((toUint32Array b true).length - 1) 0 = b.length :=
    toUint32Array_true_last b h31
  simp only [toByteArray]
  rw [if_pos trivial, if_neg (by rw [hL]; omega), hm]
  have hmod : 4 * (toUint32Array b true).length % 4294967296
      = 4 * (toUint32Array b true).length := Nat.mod_eq_of_lt (by omega)
  rw [hmod]
  have hts1 : toSigned (4 * (toUint32Array b true).length)
      = ((4 * (toUint32Array b true).length : Nat) : Int) := by
    rw [toSigned, if_pos (by omega)]
  have hsig : toSigned b.length = (b.length : Int) := by
    rw [toSigned, if_pos (by exact_mod_cast h31)]
  rw [hts1, hsig]
  have hcheck : ¬((b.length : Int)
        < ((4 * (toUint32Array b true).length : Nat) : Int) - 4 - 3
      ∨ ((4 * (toUint32Array b true).length : Nat) : Int) - 4 < (b.length : Int)) := by
    rw [hL]
    by_cases hmod4 : b.length % 4 = 0
    · rw [if_neg (by omega)]
      push_neg
      push_cast
      omega
    · rw [if_pos (by omega)]
      push_neg
      push_cast
      omega
  rw [if_neg hcheck]
  have htn : ((b.length : Int)).toNat = b.length := Int.toNat_natCast _
  rw [htn, extract_toUint32Array b hb h31]

/-! ### Top-level transform invariants -/

theorem encryptUint32Array_length (v k : List Nat) :
    (encryptUint32Array v k).length = v.length := by
  cases v with
  | nil => rfl
  | cons a tl =>
    show (encLoop k _ 0 (a :: tl)).length = _
    rw [encLoop_length]

theorem decryptUint32Array_length (v k : List Nat) :
    (decryptUint32Array v k).length = v.length := by
  cases v with
  | nil => rfl
  | cons a tl =>
    show (decLoop k _ _ (a :: tl)).length = _
    rw [decLoop_length]

theorem encryptUint32Array_mem_lt (v k : List Nat) (hv : ∀ a ∈ v, a < M32) :
    ∀ a ∈ encryptUint32Array v k, a < M32 := by
  cases v with
  | nil => simp [encryptUint32Array]
  | cons a tl =>
    show ∀ x ∈ encLoop k _ 0 (a :: tl), x < M32
    exact encLoop_mem_lt k _ 0 _ hv

theorem decryptUint32Array_mem_lt (v k : List Nat) (hv : ∀ a ∈ v, a < M32) :
    ∀ a ∈ decryptUint32Array v k, a < M32 := by
  cases v with
  | nil => simp [decryptUint32Array]
  | cons a tl =>
    show ∀ x ∈ decLoop k _ _ (a :: tl), x < M32
    exact decLoop_mem_lt k _ _ _ hv

/-! ### Key fix-up -/

theorem fixkAux_eq (fuel : Nat) :
    ∀ (k : List Nat), 4 ≤ k.length + fuel →
      fixkAux fuel k = k ++ List.replicate (4 - k.length) 0 := by
  induction fuel with
  | zero =>
    intro k hk
    have h4 : 4 - k.length = 0 := by omega
    rw [h4]
    simp [fixkAux]
  | succ fuel ih =>
    intro k hk
    show (if k.length < 4 then fixkAux fuel (k ++ [0]) else k)
        = k ++ List.replicate (4 - k.length) 0
    by_cases hlen : k.length < 4
    · rw [if_pos hlen, ih (k ++ [0]) (by simp; omega)]
      rw [List.append_assoc]
      congr 1
      have h1 : (k ++ [0]).length = k.length + 1 := by simp
      rw [h1]
      have h2 : 4 - k.length = (4 - (k.length + 1)) + 1 := by omega
      rw [h2]
      rfl
    · rw [if_neg hlen]
      have h4 : 4 - k.length = 0 := by omega
      rw [h4]
      simp

theorem fixk_eq (k : List Nat) : fixk k = k ++ List.replicate (4 - k.length) 0 :=
  fixkAux_eq 4 k (by omega)

theorem fixk_length (k : List Nat) : (fixk k).length = max 4 k.length := by
  rw [fixk_eq]
  simp
  omega

theorem fixk_of_ge (k : List Nat) (h : 4 ≤ k.length) : fixk k = k := by
  rw [fixk_eq]
  have h4 : 4 - k.length = 0 := by omega
  rw [h4]
  simp

/-! ### Only the first four key words influence the transform -/

theorem mx_key_congr (k1 k2 : List Nat) (hk : ∀ i, i < 4 → k1.getD i 0 = k2.getD i 0)
    (s y z p e : Nat) (he : e < 4) : mx s y z p e k1 = mx s y z p e k2 := by
  unfold mx
  have hp : p &&& 3 < 4 := by rw [and_3_eq]; omega
  have hidx : (p &&& 3) ^^^ e < 4 := by
    have h4 : (4:Nat) = 2 ^ 2 := by norm_num
    rw [h4] at hp he ⊢
    exact Nat.xor_lt_two_pow hp he
  rw [hk _ hidx]

theorem e_lt_4 (s : Nat) : (s >>> 2) &&& 3 < 4 := by
  rw [and_3_eq]
  omega

theorem encInner_key_congr (k1 k2 : List Nat) (hk : ∀ i, i < 4 → k1.getD i 0 = k2.getD i 0)
    (s e : Nat) (he : e < 4) :
    ∀ (seg : List Nat) (p z : Nat), encInner s e k1 p z seg = encInner s e k2 p z seg
  | [], _, _ => rfl
  | [x], _, _ => rfl
  | x :: nx :: rest, p, z => by
    rw [encInner_cons, encInner_cons, mx_key_congr k1 k2 hk s nx z p e he,
      encInner_key_congr k1 k2 hk s e he (nx :: rest) (p + 1)]

theorem encRound_key_congr (k1 k2 : List Nat) (hk : ∀ i, i < 4 → k1.getD i 0 = k2.getD i 0)
    (s e : Nat) (he : e < 4) (v : List Nat) :
    encRound s e k1 v = encRound s e k2 v := by
  cases v with
  | nil => rfl
  | cons a tl =>
    rw [encRound_cons, encRound_cons, encInner_key_congr k1 k2 hk s e he,
      mx_key_congr k1 k2 hk _ _ _ _ _ he]

theorem encLoop_key_congr (k1 k2 : List Nat) (hk : ∀ i, i < 4 → k1.getD i 0 = k2.getD i 0) :
    ∀ (q sum : Nat) (v : List Nat), encLoop k1 q sum v = encLoop k2 q sum v
  | 0, _, _ => rfl
  | q + 1, sum, v => by
    show encLoop k1 q _ (encRound _ _ k1 v) = encLoop k2 q _ (encRound _ _ k2 v)
    rw [encRound_key_congr k1 k2 hk _ _ (e_lt_4 _) v]
    exact encLoop_key_congr k1 k2 hk q _ _

theorem encryptUint32Array_key_congr (v k1 k2 : List Nat)
    (hk : ∀ i, i < 4 → k1.getD i 0 = k2.getD i 0) :
    encryptUint32Array v k1 = encryptUint32Array v k2 := by
  cases v with
  | nil => rfl
  | cons a tl => exact encLoop_key_congr k1 k2 hk _ 0 (a :: tl)

/-! ### Base64 round trip -/

theorem b64Val_b64Code (n : Nat) (h : n < 64) : b64Val (b64Code n) = some n := by
  interval_cases n <;> rfl

theorem b64Code_ne_61 (n : Nat) (h : n < 64) : b64Code n ≠ 61 := by
  intro he
  have hv := b64Val_b64Code n h
  rw [he] at hv
  simp [b64Val] at hv

theorem base64_roundtrip :
    ∀ (bs : List Nat), (∀ a ∈ bs, a < 256) → base64Decode (base64Encode bs) = some bs
  | [], _ => rfl
  | [b0], hb => by
    have h0 : b0 < 256 := hb b0 (by simp)
    show base64Decode [b64Code (b0 * 16 / 64), b64Code (b0 * 16 % 64), 61, 61] = some [b0]
    have hv0 : b0 * 16 / 64 < 64 := by omega
    have hv1 : b0 * 16 % 64 < 64 := by omega
    simp only [base64Decode, b64Val_b64Code _ hv0, b64Val_b64Code _ hv1, and_self, if_true]
    have e1 : b0 * 16 / 64 * 4 + b0 * 16 % 64 / 16 = b0 := by omega
    rw [e1]
  | [b0, b1], hb => by
    have h0 : b0 < 256 := hb b0 (by simp)
    have h1 : b1 < 256 := hb b1 (by simp)
    show base64Decode [b64Code ((b0 * 1024 + b1 * 4) / 4096),
        b64Code ((b0 * 1024 + b1 * 4) / 64 % 64), b64Code ((b0 * 1024 + b1 * 4) % 64), 61]
      = some [b0, b1]
    have hv0 : (b0 * 1024 + b1 * 4) / 4096 < 64 := by omega
    have hv1 : (b0 * 1024 + b1 * 4) / 64 % 64 < 64 := by omega
    have hv2 : (b0 * 1024 + b1 * 4) % 64 < 64 := by omega
    simp only [base64Decode, b64Val_b64Code _ hv0, b64Val_b64Code _ hv1, b64Val_b64Code _ hv2,
      and_self, if_true]
    have e1 : (b0 * 1024 + b1 * 4) / 4096 * 4 + (b0 * 1024 + b1 * 4) / 64 % 64 / 16 = b0 := by
      omega
    have e2 : (b0 * 1024 + b1 * 4) / 64 % 64 % 16 * 16 + (b0 * 1024 + b1 * 4) % 64 / 4 = b1 := by
      omega
    rw [e1, e2, if_neg (b64Code_ne_61 _ hv2)]
  | b0 :: b1 :: b2 :: rest, hb => by
    have h0 : b0 < 256 := hb b0 (by simp)
    have h1 : b1 < 256 := hb b1 (by simp)
    have h2 : b2 < 256 := hb b2 (by simp)
    have ih := base64_roundtrip rest (fun a ha => hb a (by simp [ha]))
    show base64Decode (b64Code ((b0 * 65536 + b1 * 256 + b2) / 262144)
        :: b64Code ((b0 * 65536 + b1 * 256 + b2) / 4096 % 64)
        :: b64Code ((b0 * 65536 + b1 * 256 + b2) / 64 % 64)
        :: b64Code ((b0 * 65536 + b1 * 256 + b2) % 64) :: base64Encode rest)
      = some (b0 :: b1 :: b2 :: rest)
    have hv0 : (b0 * 65536 + b1 * 256 + b2) / 262144 < 64 := by omega
    have hv1 : (b0 * 65536 + b1 * 256 + b2) / 4096 % 64 < 64 := by omega
    have hv2 : (b0 * 65536 + b1 * 256 + b2) / 64 % 64 < 64 := by omega
    have hv3 : (b0 * 65536 + b1 * 256 + b2) % 64 < 64 := by omega
    simp only [base64Decode, b64Val_b64Code _ hv0, b64Val_b64Code _ hv1,
      b64Val_b64Code _ hv2, b64Val_b64Code _ hv3]
    rw [if_neg (b64Code_ne_61 _ hv2)]
    rw [if_neg (b64Code_ne_61 _ hv3)]
    rw [ih]
    have hy : (b0 * 65536 + b1 * 256 + b2) / 262144 * 262144
        + (b0 * 65536 + b1 * 256 + b2) / 4096 % 64 * 4096
        + (b0 * 65536 + b1 * 256 + b2) / 64 % 64 * 64
        + (b0 * 65536 + b1 * 256 + b2) % 64
      = b0 * 65536 + b1 * 256 + b2 := by omega
    rw [hy]
    have f1 : (b0 * 65536 + b1 * 256 + b2) / 65536 = b0 := by omega
    have f2 : (b0 * 65536 + b1 * 256 + b2) / 256 % 256 = b1 := by omega
    have f3 : (b0 * 65536 + b1 * 256 + b2) % 256 = b2 := by omega
    rw [f1, f2, f3]

/-! ### The full Base64 pipeline -/

theorem toByteArray_false (v : List Nat) (h : v.length < 536870912) :
    toByteArray v false = some (extractBytes v (4 * v.length)) := by
  show some (extractBytes v (toSigned (4 * v.length % 4294967296)).toNat) = _
  have hmod : 4 * v.length % 4294967296 = 4 * v.length := Nat.mod_eq_of_lt (by omega)
  have hts : toSigned (4 * v.length) = ((4 * v.length : Nat) : Int) := by
    rw [toSigned, if_pos (by omega)]
  rw [hmod, hts, Int.toNat_natCast]

theorem decryptFromBase64_encryptToBase64 (b kb : List Nat) (hb : ∀ x ∈ b, x < 256)
    (hne : b ≠ []) (hsmall : b.length ≤ 2147483640) :
    decryptFromBase64 (encryptToBase64 b kb) kb
      = (match toByteArray (toUint32Array b true) true with
          | none => some none
          | some bytes => some (some bytes)) := by
  have h31 : b.length < 2147483648 := by omega
  have hvlen2 : 2 ≤ (toUint32Array b true).length := by
    rw [toUint32Array_length b true h31]
    have h1 : 1 ≤ b.length := List.length_pos.mpr hne
    split
    · simp
    · simp
      omega
  -- at most 2^29 - 1 tagged words, so the untagged emission shift does not wrap
  have hwc : (toUint32Array b true).length ≤ 536870911 := by
    rw [toUint32Array_length b true h31]
    split
    · simp
      omega
    · simp
      omega
  have hvlt : ∀ a ∈ toUint32Array b true, a < M32 :=
    toUint32Array_mem_lt b true (by simp only [M32]; omega)
  have hevlt : ∀ a ∈ encryptUint32Array (toUint32Array b true) (fixk (toUint32Array kb false)),
      a < M32 := encryptUint32Array_mem_lt _ _ hvlt
  have hevlen : (encryptUint32Array (toUint32Array b true)
      (fixk (toUint32Array kb false))).length = (toUint32Array b true).length :=
    encryptUint32Array_length _ _
  have hemit : toByteArray
      (encryptUint32Array (toUint32Array b true) (fixk (toUint32Array kb false))) false
      = some (extractBytes
          (encryptUint32Array (toUint32Array b true) (fixk (toUint32Array kb false)))
          (4 * (encryptUint32Array (toUint32Array b true)
              (fixk (toUint32Array kb false))).length)) :=
    toByteArray_false _ (by rw [hevlen]; omega)
  have henc : encryptToBase64 b kb
      = base64Encode (extractBytes
          (encryptUint32Array (toUint32Array b true) (fixk (toUint32Array kb false)))
          (4 * (encryptUint32Array (toUint32Array b true)
              (fixk (toUint32Array kb false))).length)) := by
    show base64Encode ((toByteArray (encryptUint32Array (toUint32Array b true)
        (fixk (toUint32Array kb false))) false).getD []) = _
    rw [hemit]
    rfl
  rw [henc]
  have hdec1 := base64_roundtrip _ (extractBytes_mem_lt
    (encryptUint32Array (toUint32Array b true) (fixk (toUint32Array kb false)))
    (4 * (encryptUint32Array (toUint32Array b true) (fixk (toUint32Array kb false))).length))
  have hrepack := toUint32Array_extract _ hevlt (by rw [hevlen]; omega)
  have hinv : decryptUint32Array
      (encryptUint32Array (toUint32Array b true) (fixk (toUint32Array kb false)))
      (fixk (toUint32Array kb false)) = toUint32Array b true :=
    decrypt_encrypt _ _ hvlen2 hvlt
  simp only [decryptFromBase64, hdec1, hrepack, hinv]

theorem roundtrip_pipeline (b kb : List Nat) (hb : ∀ x ∈ b, x < 256)
    (hne : b ≠ []) (hlen : b.length ≤ 2147483640) :
    decryptFromBase64 (encryptToBase64 b kb) kb = some (some b) := by
  rw [decryptFromBase64_encryptToBase64 b kb hb hne hlen]
  rw [toByteArray_toUint32Array b hb hlen]

/-! ### The table scan -/

theorem findGuestRow_spec (ci : Nat) (c : List Nat) :
    ∀ rows : List (List (List Nat)),
      (∀ r, findGuestRow ci c rows = some r →
        ∃ i, ∃ hi : i < rows.length, rows.get ⟨i, hi⟩ = r
          ∧ decryptField r[ci]? c = some c
          ∧ ∀ j, ∀ hj : j < i,
              decryptField ((rows.get ⟨j, Nat.lt_trans hj hi⟩)[ci]?) c ≠ some c)
      ∧ (findGuestRow ci c rows = none ↔ ∀ r ∈ rows, decryptField r[ci]? c ≠ some c)
  | [] => by
    constructor
    · intro r hr
      simp [findGuestRow] at hr
    · simp [findGuestRow]
  | row :: rest => by
    have ih := findGuestRow_spec ci c rest
    show ((∀ r, (if decryptField row[ci]? c = some c then some row
          else findGuestRow ci c rest) = some r → _)
        ∧ ((if decryptField row[ci]? c = some c then some row
          else findGuestRow ci c rest) = none ↔ _))
    by_cases hmatch : decryptField row[ci]? c = some c
    · rw [if_pos hmatch]
      constructor
      · intro r hr
        have hrr : row = r := by
          injection hr
        refine ⟨0, by simp, ?_, ?_, ?_⟩
        · exact hrr
        · rw [← hrr]
          exact hmatch
        · intro j hj
          exact absurd hj (Nat.not_lt_zero j)
      · constructor
        · intro h
          exact absurd h (by simp)
        · intro hall
          exact absurd hmatch (hall row (by simp))
    · rw [if_neg hmatch]
      constructor
      · intro r hr
        obtain ⟨i, hi, hget, hdec, hprev⟩ := ih.1 r hr
        refine ⟨i + 1, by simpa using Nat.succ_lt_succ hi, ?_, hdec, ?_⟩
        · simpa using hget
        · intro j hj
          cases j with
          | zero => simpa using hmatch
          | succ j' =>
            have hj' : j' < i := by omega
            simpa using hprev j' hj'
      · rw [ih.2]
        constructor
        · intro hall r hr
          rcases List.mem_cons.mp hr with rfl | hr'
          · exact hmatch
          · exact hall r hr'
        · intro hall r hr
          exact hall r (List.mem_cons_of_mem row hr)

/-! ### Claims -/

/-- C1, counterexample to the claim as stated: the round trip fails on the
empty byte buffer (the single length-tag word is not inverted by the
single-word decrypt loop, so the integrity check rejects it and
`decryptFromBase64` returns the `null` sentinel), and it also fails for a
buffer of `2147483641` bytes: its tagged encoding has `2^29` words, the
Int32 shift `length << 2` of the untagged emission wraps to `-2^31`, the
emission loop runs zero times, `encryptToBase64` returns the empty
ciphertext, and decrypting that yields the empty string, not the buffer. -/
theorem C1_counterexample :
    decryptFromBase64 (encryptToBase64 [] [107]) [107] = some none
    ∧ decryptFromBase64 (encryptToBase64 [] [107]) [107] ≠ some (some [])
    ∧ encryptToBase64 (List.replicate 2147483641 0) [107] = []
    ∧ decryptFromBase64 (encryptToBase64 (List.replicate 2147483641 0) [107]) [107]
        = some (some [])
    ∧ decryptFromBase64 (encryptToBase64 (List.replicate 2147483641 0) [107]) [107]
        ≠ some (some (List.replicate 2147483641 0)) := by
  have hlen : (List.replicate 2147483641 (0:Nat)).length = 2147483641 :=
    List.length_replicate 2147483641 0
  have hvlen : (toUint32Array (List.replicate 2147483641 (0:Nat)) true).length
      = 536870912 := by
    rw [toUint32Array_length _ true (by rw [hlen]; norm_num), hlen]
    norm_num
  have hevlen : (encryptUint32Array (toUint32Array (List.replicate 2147483641 (0:Nat)) true)
      (fixk (toUint32Array [107] false))).length = 536870912 := by
    rw [encryptUint32Array_length, hvlen]
  have hn0 : (toSigned (4 * 536870912 % 4294967296)).toNat = 0 := by decide
  have hemit : toByteArray (encryptUint32Array
      (toUint32Array (List.replicate 2147483641 (0:Nat)) true)
      (fixk (toUint32Array [107] false))) false = some [] := by
    show some (extractBytes (encryptUint32Array
        (toUint32Array (List.replicate 2147483641 (0:Nat)) true)
        (fixk (toUint32Array [107] false)))
        (toSigned (4 * (encryptUint32Array
          (toUint32Array (List.replicate 2147483641 (0:Nat)) true)
          (fixk (toUint32Array [107] false))).length % 4294967296)).toNat) = some []
    rw [hevlen, hn0]
    rfl
  have hct : encryptToBase64 (List.replicate 2147483641 0) [107] = [] := by
    show base64Encode ((toByteArray (encryptUint32Array
        (toUint32Array (List.replicate 2147483641 (0:Nat)) true)
        (fixk (toUint32Array [107] false))) false).getD []) = []
    rw [hemit]
    rfl
  have hdec : decryptFromBase64 [] [107] = some (some []) := by decide
  refine ⟨by decide, by decide, hct, ?_, ?_⟩
  · rw [hct]
    exact hdec
  · rw [hct, hdec]
    intro h
    have h1 := Option.some.inj h
    have h2 := Option.some.inj h1
    have hne : List.replicate 2147483641 (0:Nat) ≠ [] := by
      apply List.ne_nil_of_length_pos
      rw [hlen]
      norm_num
    exact hne h2.symm

/-- C1 (amended): for every non-empty byte buffer `b` of at most
`2147483640` bytes (so its tagged encoding has fewer than `2^29` words and
no Int32 shift in the codecs wraps) and every non-empty key, decrypting the
encryption of the length-tagged encoding of `b` and decoding it recovers
exactly `b`, through the full `encryptToBase64` / `decryptFromBase64`
pipeline. -/
theorem C1_round_trip (b kb : List Nat) (hb : ∀ x ∈ b, x < 256) (hbne : b ≠ [])
    (hblen : b.length ≤ 2147483640) (hkb : kb ≠ []) :
    decryptFromBase64 (encryptToBase64 b kb) kb = some (some b) :=
  roundtrip_pipeline b kb hb hbne hblen

/-- Witness for C1 at the one-byte buffer `[1]` under the key byte `107`. -/
theorem C1_witness :
    decryptFromBase64 (encryptToBase64 [1] [107]) [107] = some (some [1]) :=
  C1_round_trip [1] [107] (by decide) (by decide) (by decide) (by decide)

/-- C2: with a non-empty supplied code `c`, the row scan returns the first
row whose code cell decrypts (via `decryptField`, which maps every
decryption failure to `null`) to exactly `c`, rows before it do not match,
and it returns no row exactly when no row's code cell decrypts to `c`. -/
theorem C2_first_match (ci : Nat) (c : List Nat) (rows : List (List (List Nat)))
    (hc : c ≠ []) :
    (∀ r, processGuestData (some c) ci rows = some r →
      ∃ i, ∃ hi : i < rows.length, rows.get ⟨i, hi⟩ = r
        ∧ decryptField r[ci]? c = some c
        ∧ ∀ j, ∀ hj : j < i,
            decryptField ((rows.get ⟨j, Nat.lt_trans hj hi⟩)[ci]?) c ≠ some c)
    ∧ (processGuestData (some c) ci rows = none
        ↔ ∀ r ∈ rows, decryptField r[ci]? c ≠ some c) := by
  have hp : processGuestData (some c) ci rows = findGuestRow ci c rows := by
    simp [processGuestData, hc]
  rw [hp]
  exact findGuestRow_spec ci c rows

/-- Witness for C2 on a one-row table whose code cell is the encryption of
the code `"AB"` under itself. -/
theorem C2_witness :
    processGuestData (some [65, 66]) 0 [[encryptToBase64 [65, 66] [65, 66]]] = none
      ↔ ∀ r ∈ [[encryptToBase64 [65, 66] [65, 66]]],
          decryptField r[0]? [65, 66] ≠ some [65, 66] :=
  (C2_first_match 0 [65, 66] [[encryptToBase64 [65, 66] [65, 66]]] (by decide)).2

/-- C3, counterexample to the claim as stated: with the unsigned reading of
the trailing word demanded by the data model, decoding `[4294967295]` should
fail (`m = 4294967295` is outside `[n4-3, n4] = [-3, 0]`), but the code
compares the signed Int32 value `-1` and succeeds, emitting 0 bytes rather
than `m` bytes. -/
theorem C3_counterexample :
    toByteArray [4294967295] true = some []
    ∧ 4 * ((1:Int)) - 4 < (4294967295 : Int)
    ∧ ([] : List Nat).length ≠ 4294967295 := by decide

/-- C3 (amended): for word counts below `2^29` — so that the Int32 shift
`length << 2` does not wrap — decoding with the length tag fails exactly
when the signed Int32 reading of the trailing word `m` lies outside
`[n4-3, n4]` with `n4 = 4*(wordCount-1)`; on success it emits
`max(signed(m), 0)` bytes little-endian, which equals `m` whenever
`m < 2^31`; for `m < 2^31` the original unsigned bound is equivalent. -/
theorem C3_decode (v : List Nat) (h1 : 1 ≤ v.length) (hcap : v.length < 536870912)
    (hw : ∀ a ∈ v, a < 2 ^ 32) :
    (toByteArray v true = none
      ↔ (toSigned (v.getD (v.length - 1) 0) < 4 * (v.length : Int) - 4 - 3
          ∨ 4 * (v.length : Int) - 4 < toSigned (v.getD (v.length - 1) 0)))
    ∧ (∀ bs, toByteArray v true = some bs →
        bs = extractBytes v (toSigned (v.getD (v.length - 1) 0)).toNat
          ∧ bs.length = (toSigned (v.getD (v.length - 1) 0)).toNat)
    ∧ (v.getD (v.length - 1) 0 < 2147483648 →
        (toByteArray v true = none
          ↔ ((v.getD (v.length - 1) 0 : Int) < 4 * (v.length : Int) - 4 - 3
              ∨ 4 * (v.length : Int) - 4 < (v.getD (v.length - 1) 0 : Int)))) := by
  have hz : ¬ v.length = 0 := by omega
  simp only [toByteArray]
  rw [if_pos trivial, if_neg hz]
  -- below 2^29 words the Int32 shift `length << 2` is exact
  have hmod : 4 * v.length % 4294967296 = 4 * v.length := Nat.mod_eq_of_lt (by omega)
  have hts1 : toSigned (4 * v.length) = ((4 * v.length : Nat) : Int) := by
    rw [toSigned, if_pos (by omega)]
  have hcast : ((4 * v.length : Nat) : Int) - 4 = 4 * (v.length : Int) - 4 := by
    push_cast
    ring
  rw [hmod, hts1, hcast]
  refine ⟨?_, ?_, ?_⟩
  · by_cases hcond : toSigned (v.getD (v.length - 1) 0) < 4 * (v.length : Int) - 4 - 3
        ∨ 4 * (v.length : Int) - 4 < toSigned (v.getD (v.length - 1) 0)
    · rw [if_pos hcond]
      exact iff_of_true rfl hcond
    · rw [if_neg hcond]
      exact iff_of_false (by simp) hcond
  · intro bs hbs
    by_cases hcond : toSigned (v.getD (v.length - 1) 0) < 4 * (v.length : Int) - 4 - 3
        ∨ 4 * (v.length : Int) - 4 < toSigned (v.getD (v.length - 1) 0)
    · rw [if_pos hcond] at hbs
      exact absurd hbs (by simp)
    · rw [if_neg hcond] at hbs
      have hbs' := Option.some.inj hbs
      exact ⟨hbs'.symm, by rw [← hbs', extractBytes_length]⟩
  · intro hsmall
    have hts : toSigned (v.getD (v.length - 1) 0) = (v.getD (v.length - 1) 0 : Int) := by
      rw [toSigned, if_pos hsmall]
    rw [hts]
    by_cases hcond : (v.getD (v.length - 1) 0 : Int) < 4 * (v.length : Int) - 4 - 3
        ∨ 4 * (v.length : Int) - 4 < (v.getD (v.length - 1) 0 : Int)
    · rw [if_pos hcond]
      exact iff_of_true rfl hcond
    · rw [if_neg hcond]
      exact iff_of_false (by simp) hcond

/-- Witness for C3 at the two-word sequence `[1094795585, 4]`, whose
trailing word 4 equals `n4`. -/
theorem C3_witness :
    toByteArray [1094795585, 4] true = none
      ↔ (toSigned (([1094795585, 4] : List Nat).getD
            (([1094795585, 4] : List Nat).length - 1) 0)
          < 4 * (([1094795585, 4] : List Nat).length : Int) - 4 - 3
        ∨ 4 * (([1094795585, 4] : List Nat).length : Int) - 4
          < toSigned (([1094795585, 4] : List Nat).getD
              (([1094795585, 4] : List Nat).length - 1) 0)) :=
  (C3_decode [1094795585, 4] (by decide) (by decide) (by decide)).1

/-- C4, counterexample to the claim as stated: on input `"!"`, which is not
valid Base64, `decryptFromBase64` does not return a failure sentinel — the
platform decoder's exception escapes it (modelled by the outer `none`). -/
theorem C4_counterexample :
    decryptFromBase64 [33] [107] = none
    ∧ decryptFromBase64 [33] [107] ≠ some none := by decide

/-- C4 (amended): `decryptFromBase64` returns the `null` sentinel exactly on
a length-tag integrity failure, but propagates the exception on malformed
Base64; the caller `XXTEA_DECRYPT` collapses both outcomes into the same
empty string, so only from that level are the two indistinguishable. -/
theorem C4_failure_modes (d kb : List Nat) (hd : d ≠ []) (hkb : kb ≠ []) :
    (base64Decode d = none → decryptFromBase64 d kb = none)
    ∧ (decryptFromBase64 d kb = some none
        ↔ ∃ bs, base64Decode d = some bs
            ∧ toByteArray (decryptUint32Array (toUint32Array bs false)
                (fixk (toUint32Array kb false))) true = none)
    ∧ (decryptFromBase64 d kb = none → XXTEA_DECRYPT (.str d) (.str kb) = [])
    ∧ (decryptFromBase64 d kb = some none → XXTEA_DECRYPT (.str d) (.str kb) = []) := by
  refine ⟨?_, ?_, ?_, ?_⟩
  · intro h
    simp [decryptFromBase64, h]
  · constructor
    · intro h
      rcases hb64 : base64Decode d with _ | bs
      · simp [decryptFromBase64, hb64] at h
      · refine ⟨bs, rfl, ?_⟩
        simp only [decryptFromBase64, hb64] at h
        rcases htb : toByteArray (decryptUint32Array (toUint32Array bs false)
            (fixk (toUint32Array kb false))) true with _ | bytes
        · rfl
        · rw [htb] at h
          simp at h
    · rintro ⟨bs, hb64, htb⟩
      simp [decryptFromBase64, hb64, htb]
  · intro h
    simp [XXTEA_DECRYPT, hd, hkb, h]
  · intro h
    simp [XXTEA_DECRYPT, hd, hkb, h]

/-- Witness for C4: the malformed input `"!"` under key byte 107 makes
`decryptFromBase64` throw rather than return the sentinel. -/
theorem C4_witness : decryptFromBase64 [33] [107] = none :=
  (C4_failure_modes [33] [107] (by decide) (by decide)).1 (by decide)

/-- C5, counterexample to the claim as stated: for the word array `[0]` of
length 1 and the 4-word key `[0,0,0,0]`, decrypting the encryption does not
restore the input (the single-word round reads the already-updated word, so
the decrypt rounds subtract different mix values than were added). -/
theorem C5_counterexample :
    decryptUint32Array (encryptUint32Array [0] [0, 0, 0, 0]) [0, 0, 0, 0] ≠ [0]
    ∧ decryptUint32Array (encryptUint32Array [0] [0, 0, 0, 0]) [0, 0, 0, 0]
        = [2552612853] := by decide

/-- C5 (amended): for every word array of length at least 2 (all words below
`2^32`) and every 4-word key, `decryptUint32Array` is the exact inverse of
`encryptUint32Array`. -/
theorem C5_inverse (v k : List Nat) (h2 : 2 ≤ v.length) (hw : ∀ a ∈ v, a < 2 ^ 32)
    (hk : k.length = 4) :
    decryptUint32Array (encryptUint32Array v k) k = v :=
  decrypt_encrypt v k h2 (fun a ha => by rw [M32_eq_pow]; exact hw a ha)

/-- Witness for C5 at the word array `[1, 2]` and key `[3, 4, 5, 6]`. -/
theorem C5_witness :
    decryptUint32Array (encryptUint32Array [1, 2] [3, 4, 5, 6]) [3, 4, 5, 6] = [1, 2] :=
  C5_inverse [1, 2] [3, 4, 5, 6] (by decide) (by decide) (by decide)

/-- C6: the key fix-up appends zero words up to exactly 4 and never
truncates (the original key is kept as a prefix), and any two keys that
agree on words 0..3 — regardless of what stands at index 4 and beyond —
produce identical ciphertext for every plaintext, since the transform
indexes the key only through `(p & 3) ^ e` with `e` in 0..3. -/
theorem C6_key_handling (k v k1 k2 : List Nat)
    (hagree : ∀ i, i < 4 → k1.getD i 0 = k2.getD i 0) :
    fixk k = k ++ List.replicate (4 - k.length) 0
    ∧ (fixk k).length = max 4 k.length
    ∧ (4 ≤ k.length → fixk k = k)
    ∧ encryptUint32Array v k1 = encryptUint32Array v k2 :=
  ⟨fixk_eq k, fixk_length k, fixk_of_ge k, encryptUint32Array_key_congr v k1 k2 hagree⟩

/-- Witness for C6: a short key is zero-padded, and two five-word keys that
differ only in word 4 encrypt `[7]` identically. -/
theorem C6_witness :
    fixk [1, 2] = [1, 2] ++ List.replicate (4 - ([1, 2] : List Nat).length) 0
    ∧ encryptUint32Array [7] [1, 2, 3, 4, 5] = encryptUint32Array [7] [1, 2, 3, 4, 99] := by
  have h := C6_key_handling [1, 2] [7] [1, 2, 3, 4, 5] [1, 2, 3, 4, 99]
    (by intro i hi; interval_cases i <;> rfl)
  exact ⟨h.1, h.2.2.2⟩

/-- C7: the round count is `floor(6 + 52/n)` for both directions (for the
decrypting while loop this is proved from `DELTA` being odd, so `sum` hits 0
after exactly that many decrements), `DELTA` is the fixed constant
`0x9E3779B9`, and all resulting words are reduced modulo `2^32`. -/
theorem C7_round_schedule (v k : List Nat) (h1 : 1 ≤ v.length)
    (hw : ∀ a ∈ v, a < 2 ^ 32) :
    DELTA = 0x9E3779B9
    ∧ encryptUint32Array v k = encLoop k (6 + 52 / v.length) 0 v
    ∧ decryptUint32Array v k
        = decLoopN k (6 + 52 / v.length) (int32 ((6 + 52 / v.length) * DELTA)) v
    ∧ (∀ x ∈ encryptUint32Array v k, x < 2 ^ 32)
    ∧ (∀ x ∈ decryptUint32Array v k, x < 2 ^ 32) := by
  obtain ⟨a, tl, rfl⟩ : ∃ a tl, v = a :: tl := by
    cases v with
    | nil => simp at h1
    | cons a tl => exact ⟨a, tl, rfl⟩
  have hw' : ∀ x ∈ a :: tl, x < M32 := fun x hx => by rw [M32_eq_pow]; exact hw x hx
  refine ⟨rfl, rfl, ?_, ?_, ?_⟩
  · show decLoop k ((6 + 52 / (a :: tl).length) + 1)
        (int32 ((6 + 52 / (a :: tl).length) * DELTA)) (a :: tl) = _
    apply decLoop_eq_decLoopN
    have hd : 52 / (a :: tl).length ≤ 52 := Nat.div_le_self _ _
    simp only [M32]
    omega
  · intro x hx
    rw [← M32_eq_pow]
    exact encryptUint32Array_mem_lt _ k hw' x hx
  · intro x hx
    rw [← M32_eq_pow]
    exact decryptUint32Array_mem_lt _ k hw' x hx

/-- Witness for C7 at the single-word array `[5]` and key `[1, 2, 3, 4]`:
the decrypting while loop performs exactly 58 rounds. -/
theorem C7_witness :
    decryptUint32Array [5] [1, 2, 3, 4]
      = decLoopN [1, 2, 3, 4] (6 + 52 / ([5] : List Nat).length)
          (int32 ((6 + 52 / ([5] : List Nat).length) * DELTA)) [5] :=
  (C7_round_schedule [5] [1, 2, 3, 4] (by decide) (by decide)).2.2.1

/-- C8: the encrypt transform has no early return for single-word arrays: it
runs `floor(6 + 52/1) = 58` rounds, each round performing exactly one update
in which the word feeds from itself (`y = z =` the current word), and the
output generally differs from the input. -/
theorem C8_single_word :
    (∀ w k, encryptUint32Array [w] k = encLoop k 58 0 [w])
    ∧ (∀ s e k w, encRound s e k [w] = [int32 (w + mx s w w 0 e k)])
    ∧ encryptUint32Array [0] (List.replicate 4 0) ≠ [0] := by
  refine ⟨fun w k => ?_, fun s e k w => rfl, by decide⟩
  show encLoop k (6 + 52 / ([w] : List Nat).length) 0 [w] = encLoop k 58 0 [w]
  norm_num

/-- C9: both transforms preserve the word count. -/
theorem C9_length_preserved (v k : List Nat) (h1 : 1 ≤ v.length) :
    (encryptUint32Array v k).length = v.length
    ∧ (decryptUint32Array v k).length = v.length :=
  ⟨encryptUint32Array_length v k, decryptUint32Array_length v k⟩

/-- Witness for C9 at `[5]` with key `[0, 0, 0, 0]`. -/
theorem C9_witness :
    (encryptUint32Array [5] [0, 0, 0, 0]).length = ([5] : List Nat).length
    ∧ (decryptUint32Array [5] [0, 0, 0, 0]).length = ([5] : List Nat).length :=
  C9_length_preserved [5] [0, 0, 0, 0] (by decide)

/-- C10: the wrappers return the empty string for missing data (undefined,
null, or the empty string), the literal error string for a missing key, and
`XXTEA_DECRYPT` maps both a `null` cipher result and a thrown exception to
the empty string, never distinguishing the two. -/
theorem C10_wrapper_edge_cases (d kb : List Nat) (hd : d ≠ []) (hkb : kb ≠ []) :
    (∀ key, XXTEA_ENCRYPT .undef key = [] ∧ XXTEA_ENCRYPT .null key = []
      ∧ XXTEA_ENCRYPT (.str []) key = [])
    ∧ (∀ key, XXTEA_DECRYPT .undef key = [] ∧ XXTEA_DECRYPT .null key = []
      ∧ XXTEA_DECRYPT (.str []) key = [])
    ∧ (XXTEA_ENCRYPT (.str d) .undef = errMsg ∧ XXTEA_ENCRYPT (.str d) .null = errMsg
      ∧ XXTEA_ENCRYPT (.str d) (.str []) = errMsg)
    ∧ (XXTEA_DECRYPT (.str d) .undef = errMsg ∧ XXTEA_DECRYPT (.str d) .null = errMsg
      ∧ XXTEA_DECRYPT (.str d) (.str []) = errMsg)
    ∧ (decryptFromBase64 d kb = none → XXTEA_DECRYPT (.str d) (.str kb) = [])
    ∧ (decryptFromBase64 d kb = some none → XXTEA_DECRYPT (.str d) (.str kb) = []) := by
  refine ⟨?_, ?_, ?_, ?_, ?_, ?_⟩
  · intro key
    exact ⟨rfl, rfl, rfl⟩
  · intro key
    exact ⟨rfl, rfl, rfl⟩
  · refine ⟨?_, ?_, ?_⟩ <;> simp [XXTEA_ENCRYPT, hd]
  · refine ⟨?_, ?_, ?_⟩ <;> simp [XXTEA_DECRYPT, hd]
  · intro h
    simp [XXTEA_DECRYPT, hd, hkb, h]
  · intro h
    simp [XXTEA_DECRYPT, hd, hkb, h]

/-- Witness for C10: malformed data collapses to the empty string, and an
empty key yields the error string. -/
theorem C10_witness :
    XXTEA_DECRYPT (.str [33]) (.str [107]) = []
    ∧ XXTEA_ENCRYPT (.str [33]) (.str []) = errMsg := by
  have h := C10_wrapper_edge_cases [33] [107] (by decide) (by decide)
  exact ⟨h.2.2.2.2.1 (by decide), h.2.2.1.2.2⟩
